import Mathlib

/-!
Verification of the gokv replicated state engine (`cluster` package).

The development shallowly embeds the `Delegate` state machine: Go maps
`map[string]*Entry` become association lists operated on through
`alookup` / `ainsert` (first-occurrence discipline, which coincides with
Go map semantics because Go map keys are unique), protobuf messages become
plain structures, and wall-clock reads (`time.Now().UTC().Unix()`) become
an explicit `now : Int` parameter.  Timestamps are kept at whole-second
resolution (`Int` unix seconds) because the source only ever consults
`.AsTime().Unix()`; a `nil` protobuf timestamp yields unix second 0, which
is modelled by `Option Int` with default 0.
-/

namespace GoKV

/-- Association-list lookup, modelling Go map indexing `m[k]`. -/
def alookup {β : Type} : List (String × β) → String → Option β
  | [], _ => none
  | (k0, v) :: rest, k => if k0 = k then some v else alookup rest k

/-- Association-list insert-or-overwrite, modelling Go map assignment `m[k] = v`. -/
def ainsert {β : Type} : List (String × β) → String → β → List (String × β)
  | [], k, v => [(k, v)]
  | (k0, v0) :: rest, k, v =>
      if k0 = k then (k, v) :: rest else (k0, v0) :: ainsert rest k v

/-- The keys of an association list. -/
def akeys {β : Type} (m : List (String × β)) : List String := m.map Prod.fst

/-- The protobuf `internalpb.Entry` message: key, opaque value bytes, optional
archived (tombstone) flag, optional last-updated timestamp (unix seconds; the
source only ever reads `.AsTime().Unix()`), optional expiry duration. -/
structure Entry where
  key : String
  value : List Nat
  archived : Option Bool
  last_updated_time : Option Int
  expiry : Option Int
deriving DecidableEq

/-- Go getter `GetArchived`: `nil` pointer reads as `false`. -/
def Entry.getArchived (e : Entry) : Bool := e.archived.getD false

/-- Go expression `entry.GetLastUpdatedTime().AsTime().Unix()`: a `nil`
timestamp yields unix second 0. -/
def Entry.lastUpdatedUnix (e : Entry) : Int := e.last_updated_time.getD 0

/-- Go map `map[string]*internalpb.Entry`. -/
abbrev Entries := List (String × Entry)

/-- The protobuf `internalpb.NodeState` message: one replica partition. -/
structure NodeState where
  nodeId : String
  entries : Entries
deriving DecidableEq

/-- The protobuf `internalpb.FSM` message: the list of node partitions. -/
structure FSM where
  nodeStates : List NodeState
deriving DecidableEq

/-- The `expired` helper (part_001 lines 324-333): false when no expiry is
set, false when the last-updated unix second is not positive, otherwise
true exactly when the current unix second is strictly past the
last-updated unix second (the stored duration is never consulted). -/
def expired (now : Int) (e : Entry) : Bool :=
  match e.expiry with
  | none => false
  | some _ =>
      let expiration := e.lastUpdatedUnix
      if expiration ≤ 0 then false else decide (expiration < now)

/-- The `setExpiry` helper (lines 336-342): a non-positive duration means no
expiry. -/
def setExpiry (expiration : Int) : Option Int :=
  if expiration > 0 then some expiration else none

/-- The specification's `isVisible(e)` predicate: not archived and not expired. -/
def isVisible (now : Int) (e : Entry) : Bool := !e.getArchived && !expired now e

/-- The expiry predicate exactly as the specification words it: the expiry is
present and the current unix second is strictly greater than the
last-updated unix second.  Kept separate from `expired` so the two can be
compared. -/
def isExpiredSpec (now : Int) (e : Entry) : Bool :=
  e.expiry.isSome && decide (e.lastUpdatedUnix < now)

/-- One step of the entry-merge loop in `MergeRemoteState` (lines 140-158):
an absent local key adopts the remote entry; a strictly newer local entry is
kept; otherwise the remote entry overwrites. -/
def mergeStep (acc : Entries) (kv : String × Entry) : Entries :=
  match alookup acc kv.1 with
  | none => ainsert acc kv.1 kv.2
  | some localEntry =>
      if localEntry.lastUpdatedUnix > kv.2.lastUpdatedUnix then acc
      else ainsert acc kv.1 kv.2

/-- The entry-merge loop folded over all remote entries of one partition. -/
def mergeEntries (localEntries remoteEntries : Entries) : Entries :=
  remoteEntries.foldl mergeStep localEntries

/-- Working map from node id to its entries, as built in lines 116-119. -/
abbrev StateMap := List (String × Entries)

/-- Index the local partitions by node id (lines 116-119). -/
def buildMap (states : List NodeState) : StateMap :=
  states.foldl (fun acc ns => ainsert acc ns.nodeId ns.entries) []

/-- Processing of one remote partition (lines 124-161): adopt it verbatim
when the node id is locally absent, otherwise merge entry-wise. -/
def mergeNodeStep (acc : StateMap) (rns : NodeState) : StateMap :=
  match alookup acc rns.nodeId with
  | none => ainsert acc rns.nodeId rns.entries
  | some localEntries => ainsert acc rns.nodeId (mergeEntries localEntries rns.entries)

/-- `Delegate.MergeRemoteState` (lines 107-174): index the local partitions,
fold in every remote partition, and rebuild the node-state list from the
working map. -/
def mergeRemoteState (localFSM remoteFSM : FSM) : FSM :=
  ⟨(remoteFSM.nodeStates.foldl mergeNodeStep (buildMap localFSM.nodeStates)).map
      (fun kv => ⟨kv.1, kv.2⟩)⟩

/-- The fresh entry installed by `Put` (lines 191-196): new value, fresh
timestamp, no archived flag, expiry derived from the requested duration. -/
def freshEntry (key : String) (value : List Nat) (now : Int) (expiration : Int) : Entry :=
  { key := key, value := value, archived := none,
    last_updated_time := some now, expiry := setExpiry expiration }

/-- First loop of `Put` (lines 188-201): overwrite the key in every partition
that contains it. -/
def overwriteAll (key : String) (fresh : Entry) (states : List NodeState) : List NodeState :=
  states.map fun ns =>
    if (alookup ns.entries key).isSome then ⟨ns.nodeId, ainsert ns.entries key fresh⟩
    else ns

/-- Second loop of `Put` (lines 211-233): insert the fresh entry into the
first partition owned by this node (a missing own partition drops the write). -/
def insertLocal (me key : String) (fresh : Entry) : List NodeState → List NodeState
  | [] => []
  | ns :: rest =>
      if ns.nodeId = me then ⟨ns.nodeId, ainsert ns.entries key fresh⟩ :: rest
      else ns :: insertLocal me key fresh rest

/-- `Delegate.Put` (lines 177-234). -/
def put (me : String) (now : Int) (key : String) (value : List Nat)
    (expiration : Int) (fsm : FSM) : FSM :=
  let fresh := freshEntry key value now expiration
  if fsm.nodeStates.any (fun ns => (alookup ns.entries key).isSome) then
    ⟨overwriteAll key fresh fsm.nodeStates⟩
  else
    ⟨insertLocal me key fresh fsm.nodeStates⟩

/-- Scan of `Delegate.Delete` (lines 276-285): archive and re-timestamp the
key in the first partition that both contains the key and is owned by this
node, then stop. -/
def deleteAux (me : String) (now : Int) (key : String) : List NodeState → List NodeState
  | [] => []
  | ns :: rest =>
      match alookup ns.entries key with
      | some e =>
          if ns.nodeId = me then
            ⟨ns.nodeId, ainsert ns.entries key
                { e with archived := some true, last_updated_time := some now }⟩ :: rest
          else ns :: deleteAux me now key rest
      | none => ns :: deleteAux me now key rest

/-- `Delegate.Delete` (lines 272-286). -/
def deleteKey (me : String) (now : Int) (key : String) (fsm : FSM) : FSM :=
  ⟨deleteAux me now key fsm.nodeStates⟩

/-- Scan of `Delegate.Get` (lines 241-250): the first partition containing
the key decides; an expired hit fails. -/
def getAux (now : Int) (key : String) : List NodeState → Option Entry
  | [] => none
  | ns :: rest =>
      match alookup ns.entries key with
      | some e => if expired now e then none else some e
      | none => getAux now key rest

/-- `Delegate.Get` (lines 237-252); `none` models `ErrKeyNotFound`. -/
def getEntry (now : Int) (key : String) (fsm : FSM) : Option Entry :=
  getAux now key fsm.nodeStates

/-- Scan of `Delegate.Exists` (lines 293-303). -/
def existsAux (now : Int) (key : String) : List NodeState → Bool
  | [] => false
  | ns :: rest =>
      match alookup ns.entries key with
      | some e => if expired now e then false else !e.getArchived
      | none => existsAux now key rest

/-- `Delegate.Exists` (lines 289-304). -/
def existsKey (now : Int) (key : String) (fsm : FSM) : Bool :=
  existsAux now key fsm.nodeStates

/-- First entry for a key in partition iteration order, with no expiry or
tombstone filtering: the reference point for the Get and Exists claims. -/
def firstMatchAux (key : String) : List NodeState → Option Entry
  | [] => none
  | ns :: rest =>
      match alookup ns.entries key with
      | some e => some e
      | none => firstMatchAux key rest

/-- First entry for a key across the partitions of an FSM. -/
def firstMatch (key : String) (fsm : FSM) : Option Entry :=
  firstMatchAux key fsm.nodeStates

/-- First partition carrying a given node id. -/
def findNS (n : String) : List NodeState → Option NodeState
  | [] => none
  | ns :: rest => if ns.nodeId = n then some ns else findNS n rest

/-- Entry stored for `(n, k)`: the entry under `k` in the first partition
whose id is `n`. -/
def fsmLookup (fsm : FSM) (n k : String) : Option Entry :=
  match findNS n fsm.nodeStates with
  | none => none
  | some ns => alookup ns.entries k

/-- Specification invariant P1: node ids are unique within an FSM. -/
def uniqIds (fsm : FSM) : Prop := (fsm.nodeStates.map NodeState.nodeId).Nodup

/-- Data-model well-formedness of the entry maps: within each partition the
keys are unique, as Go maps guarantee structurally. -/
def wfEntriesF (fsm : FSM) : Prop := ∀ ns ∈ fsm.nodeStates, (akeys ns.entries).Nodup

/-- Membership of a `(node id, key, entry)` triple in an FSM. -/
def tripleIn (fsm : FSM) (n k : String) (e : Entry) : Prop :=
  ∃ ns ∈ fsm.nodeStates, ns.nodeId = n ∧ (k, e) ∈ ns.entries

/-- Pointwise last-writer-wins combination of a local and a remote entry, as
the specification describes the merge: a strictly newer local entry wins,
otherwise the remote entry wins when present. -/
def lww (el er : Option Entry) : Option Entry :=
  match el, er with
  | some l, some r => if l.lastUpdatedUnix > r.lastUpdatedUnix then some l else some r
  | some l, none => some l
  | none, some r => some r
  | none, none => none

/-- The engine operations reachable through the delegate write path. -/
inductive Op where
  | putOp (now : Int) (key : String) (value : List Nat) (expiration : Int)
  | delOp (now : Int) (key : String)
  | mergeOp (remote : FSM)

/-- Dispatch of one operation on the state. -/
def applyOp (me : String) (fsm : FSM) : Op → FSM
  | .putOp now key value expiration => put me now key value expiration fsm
  | .delOp now key => deleteKey me now key fsm
  | .mergeOp remote => mergeRemoteState fsm remote

/-- The FSM installed by `newDelegate` (lines 306-321): the single own
partition with an empty entries map. -/
def initFSM (me : String) : FSM := ⟨[⟨me, []⟩]⟩

/-- State reached from the initial state by a sequence of operations. -/
def run (me : String) (ops : List Op) : FSM := ops.foldl (applyOp me) (initFSM me)

/-- The protobuf `internalpb.NodeMeta` message: name, host, port, discovery
port, optional creation time (seconds and nanos). -/
structure NodeMeta where
  name : String
  host : String
  port : Nat
  discoveryPort : Nat
  creationTime : Option (Nat × Nat)
deriving DecidableEq

/-- Little-endian base-128 varint encoding used by the protobuf wire format. -/
def varint : Nat → List Nat
  | n =>
    if h : n < 128 then [n]
    else (n % 128 + 128) :: varint (n / 128)
termination_by n => n
decreasing_by
  exact Nat.div_lt_self (by omega) (by omega)

/-- UTF-8 encoding of one character. -/
def utf8Bytes (c : Char) : List Nat :=
  let n := c.toNat
  if n < 128 then [n]
  else if n < 2048 then [192 + n / 64, 128 + n % 64]
  else if n < 65536 then [224 + n / 4096, 128 + n / 64 % 64, 128 + n % 64]
  else [240 + n / 262144, 128 + n / 4096 % 64, 128 + n / 64 % 64, 128 + n % 64]

/-- UTF-8 bytes of a string. -/
def strBytes (s : String) : List Nat := (s.data.map utf8Bytes).flatten

/-- A length-delimited protobuf field: tag byte, payload length, payload. -/
def lenDelimited (tag : Nat) (payload : List Nat) : List Nat :=
  tag :: (varint payload.length ++ payload)

/-- A proto3 string field: omitted when empty. -/
def marshalStringField (tag : Nat) (s : String) : List Nat :=
  if s = "" then [] else lenDelimited tag (strBytes s)

/-- A proto3 varint field: omitted when zero. -/
def marshalVarintField (tag : Nat) (n : Nat) : List Nat :=
  if n = 0 then [] else tag :: varint n

/-- Wire encoding of a `google.protobuf.Timestamp` payload. -/
def marshalTimestampMsg (sec nanos : Nat) : List Nat :=
  marshalVarintField 8 sec ++ marshalVarintField 16 nanos

/-- Wire encoding of `internalpb.NodeMeta` (fields 1-5), the behaviour of
`proto.Marshal(d.nodeMeta)`. -/
def marshalNodeMeta (m : NodeMeta) : List Nat :=
  marshalStringField 10 m.name ++ marshalStringField 18 m.host ++
  marshalVarintField 24 m.port ++ marshalVarintField 32 m.discoveryPort ++
  (match m.creationTime with
   | none => []
   | some st => lenDelimited 42 (marshalTimestampMsg st.1 st.2))

/-- The `NodeMeta` delegate callback (lines 61-67): it marshals the metadata
and returns the bytes; the `limit` argument is never consulted. -/
def nodeMetaCallback (m : NodeMeta) (_limit : Nat) : List Nat := marshalNodeMeta m

/-! ### Helper lemmas about the association-list map operations -/

theorem alookup_ainsert_self {β : Type} (m : List (String × β)) (k : String) (v : β) :
    alookup (ainsert m k v) k = some v := by
  induction m with
  | nil => simp [ainsert, alookup]
  | cons hd tl ih =>
      obtain ⟨k0, v0⟩ := hd
      by_cases h : k0 = k
      · simp [ainsert, alookup, h]
      · simp [ainsert, alookup, h, ih]

theorem alookup_ainsert_ne {β : Type} (m : List (String × β)) (k0 k : String) (v : β)
    (h : k0 ≠ k) : alookup (ainsert m k0 v) k = alookup m k := by
  induction m with
  | nil => simp [ainsert, alookup, h]
  | cons hd tl ih =>
      obtain ⟨k1, v1⟩ := hd
      by_cases h1 : k1 = k0
      · subst h1
        simp [ainsert, alookup, h]
      · simp only [ainsert, if_neg h1]
        by_cases h2 : k1 = k
        · simp [alookup, h2]
        · simp [alookup, h2, ih]

theorem ainsert_of_not_mem {β : Type} (m : List (String × β)) (k : String) (v : β)
    (h : k ∉ akeys m) : ainsert m k v = m ++ [(k, v)] := by
  induction m with
  | nil => simp [ainsert]
  | cons hd tl ih =>
      obtain ⟨k0, v0⟩ := hd
      simp only [akeys, List.map_cons, List.mem_cons] at h
      push_neg at h
      have hne : k0 ≠ k := fun hc => h.1 hc.symm
      simp only [ainsert, if_neg hne, List.cons_append]
      rw [ih (by simpa [akeys] using h.2)]

theorem mem_akeys_ainsert {β : Type} (m : List (String × β)) (k x : String) (v : β) :
    x ∈ akeys (ainsert m k v) ↔ x ∈ akeys m ∨ x = k := by
  induction m with
  | nil => simp [ainsert, akeys]
  | cons hd tl ih =>
      obtain ⟨k0, v0⟩ := hd
      by_cases h : k0 = k
      · subst h
        simp [ainsert, akeys]
        tauto
      · have ih2 : x ∈ List.map Prod.fst (ainsert tl k v) ↔
            x ∈ List.map Prod.fst tl ∨ x = k := ih
        simp only [ainsert, if_neg h, akeys, List.map_cons, List.mem_cons, ih2]
        tauto

theorem akeys_ainsert_nodup {β : Type} (m : List (String × β)) (k : String) (v : β)
    (h : (akeys m).Nodup) : (akeys (ainsert m k v)).Nodup := by
  induction m with
  | nil => simp [ainsert, akeys]
  | cons hd tl ih =>
      obtain ⟨k0, v0⟩ := hd
      simp only [akeys, List.map_cons, List.nodup_cons] at h
      by_cases hk : k0 = k
      · subst hk
        simpa [ainsert, akeys, List.nodup_cons] using h
      · simp only [ainsert, if_neg hk, akeys, List.map_cons, List.nodup_cons]
        refine ⟨?_, ih h.2⟩
        intro hmem
        rcases (mem_akeys_ainsert tl k k0 v).1 hmem with h1 | h1
        · exact h.1 (by simpa [akeys] using h1)
        · exact hk h1

theorem alookup_eq_none_of_not_mem {β : Type} (m : List (String × β)) (k : String)
    (h : k ∉ akeys m) : alookup m k = none := by
  induction m with
  | nil => rfl
  | cons hd tl ih =>
      obtain ⟨k0, v0⟩ := hd
      simp only [akeys, List.map_cons, List.mem_cons] at h
      push_neg at h
      have : k0 ≠ k := fun hc => h.1 hc.symm
      simp [alookup, this, ih (by simpa [akeys] using h.2)]

theorem getAux_firstMatchAux (now : Int) (key : String) (l : List NodeState) :
    getAux now key l =
      match firstMatchAux key l with
      | none => none
      | some e => if expired now e then none else some e := by
  induction l with
  | nil => rfl
  | cons ns rest ih =>
      simp only [getAux, firstMatchAux]
      cases h : alookup ns.entries key with
      | none => exact ih
      | some e => rfl

theorem existsAux_firstMatchAux (now : Int) (key : String) (l : List NodeState) :
    existsAux now key l =
      match firstMatchAux key l with
      | none => false
      | some e => isVisible now e := by
  induction l with
  | nil => rfl
  | cons ns rest ih =>
      simp only [existsAux, firstMatchAux]
      cases h : alookup ns.entries key with
      | none => exact ih
      | some e =>
          simp only [isVisible]
          cases hx : expired now e <;> simp [hx]

/-- C5: `Get(k)` fails with KeyNotFound exactly when either no partition
contains an entry for `k` or the first entry for `k` in partition iteration
order is expired; otherwise it returns that first matching entry as stored,
including when the entry is archived. -/
theorem get_matches_first_entry (now : Int) (key : String) (fsm : FSM) :
    getEntry now key fsm =
      match firstMatch key fsm with
      | none => none
      | some e => if expired now e then none else some e :=
  getAux_firstMatchAux now key fsm.nodeStates

/-- C6: `Exists(k)` returns `isVisible` (not archived and not expired) of the
first entry matching `k` in partition iteration order, and `false` when no
partition contains an entry for `k`. -/
theorem exists_matches_first_visible (now : Int) (key : String) (fsm : FSM) :
    existsKey now key fsm =
      match firstMatch key fsm with
      | none => false
      | some e => isVisible now e :=
  existsAux_firstMatchAux now key fsm.nodeStates

/-- Entry with expiry set and last-updated at the unix epoch, on which the
claimed expiry predicate and the implemented one disagree. -/
def c3entry : Entry :=
  { key := "k", value := [], archived := none, last_updated_time := some 0,
    expiry := some 100 }

/-- C3 counterexample: at current second 5, an entry carrying an expiry whose
last-updated unix second is 0 satisfies the predicate exactly as the claim
words it, yet the implemented `expired` returns `false` because of its extra
guard on non-positive last-updated seconds. -/
theorem expired_spec_mismatch :
    isExpiredSpec 5 c3entry = true ∧ expired 5 c3entry = false := by
  exact ⟨by decide, by decide⟩

/-- C3 amended: the expiry predicate used by Get, Exists and List holds
exactly when the expiry is present, the last-updated unix second is strictly
positive, and the current unix second is strictly greater than that
last-updated second (the stored duration is never added to the deadline). -/
theorem expired_characterization (now : Int) (e : Entry) :
    expired now e =
      (e.expiry.isSome && (decide (0 < e.lastUpdatedUnix) &&
        decide (e.lastUpdatedUnix < now))) := by
  obtain ⟨k, v, a, t, ex⟩ := e
  cases ex with
  | none => rfl
  | some d =>
      by_cases hx : (Option.getD t 0 : Int) ≤ 0
      · have h2 : ¬ (0 : Int) < Option.getD t 0 := by omega
        simp [expired, Entry.lastUpdatedUnix, hx, h2]
      · have h2 : (0 : Int) < Option.getD t 0 := by omega
        simp [expired, Entry.lastUpdatedUnix, hx, h2]

/-- Node metadata whose serialization is eight bytes long. -/
def c9meta : NodeMeta :=
  { name := "node-1", host := "", port := 0, discoveryPort := 0,
    creationTime := none }

/-- C9 counterexample: with limit 0 the callback still returns the full
eight-byte serialization, so the result is not truncated to at most the
limit. -/
theorem nodeMeta_exceeds_limit :
    ¬ (nodeMetaCallback c9meta 0).length ≤ 0 := by decide

/-- C9 amended: `NodeMeta(limit)` returns the serialized node metadata in
full; the limit argument is ignored and no truncation happens. -/
theorem nodeMeta_full_bytes (m : NodeMeta) (limit : Nat) :
    nodeMetaCallback m limit = marshalNodeMeta m := rfl

/-! ### Node-id uniqueness through the write path -/

theorem buildMap_go_nodup (states : List NodeState) (acc : StateMap)
    (h : (akeys acc).Nodup) :
    (akeys (states.foldl (fun acc2 ns => ainsert acc2 ns.nodeId ns.entries) acc)).Nodup := by
  induction states generalizing acc with
  | nil => simpa using h
  | cons ns rest ih => exact ih _ (akeys_ainsert_nodup _ _ _ h)

theorem buildMap_nodup (states : List NodeState) : (akeys (buildMap states)).Nodup :=
  buildMap_go_nodup states [] (by simp [akeys])

theorem mergeNodeStep_nodup (acc : StateMap) (rns : NodeState)
    (h : (akeys acc).Nodup) : (akeys (mergeNodeStep acc rns)).Nodup := by
  cases h2 : alookup acc rns.nodeId with
  | none =>
      simp only [mergeNodeStep, h2]
      exact akeys_ainsert_nodup _ _ _ h
  | some le =>
      simp only [mergeNodeStep, h2]
      exact akeys_ainsert_nodup _ _ _ h

theorem mergeFold_nodup (rs : List NodeState) (acc : StateMap)
    (h : (akeys acc).Nodup) : (akeys (rs.foldl mergeNodeStep acc)).Nodup := by
  induction rs generalizing acc with
  | nil => simpa using h
  | cons rns rest ih => exact ih _ (mergeNodeStep_nodup _ _ h)

theorem map_nodeId_mk (m : StateMap) :
    List.map NodeState.nodeId (m.map (fun kv => (⟨kv.1, kv.2⟩ : NodeState))) = akeys m := by
  induction m with
  | nil => rfl
  | cons hd tl ih =>
      simp only [List.map_cons, akeys] at ih ⊢
      rw [ih]

theorem merge_uniqIds (L R : FSM) : uniqIds (mergeRemoteState L R) := by
  have h := mergeFold_nodup R.nodeStates (buildMap L.nodeStates) (buildMap_nodup L.nodeStates)
  unfold uniqIds mergeRemoteState
  rw [map_nodeId_mk]
  exact h

theorem overwriteAll_ids (key : String) (fresh : Entry) (states : List NodeState) :
    (overwriteAll key fresh states).map NodeState.nodeId = states.map NodeState.nodeId := by
  induction states with
  | nil => rfl
  | cons ns rest ih =>
      simp only [overwriteAll, List.map_cons] at ih ⊢
      rw [ih]
      by_cases hc : (alookup ns.entries key).isSome <;> simp [hc]

theorem insertLocal_ids (me key : String) (fresh : Entry) (states : List NodeState) :
    (insertLocal me key fresh states).map NodeState.nodeId = states.map NodeState.nodeId := by
  induction states with
  | nil => rfl
  | cons ns rest ih =>
      by_cases hc : ns.nodeId = me
      · simp [insertLocal, hc]
      · simp [insertLocal, hc, ih]

theorem deleteAux_ids (me : String) (now : Int) (key : String) (states : List NodeState) :
    (deleteAux me now key states).map NodeState.nodeId = states.map NodeState.nodeId := by
  induction states with
  | nil => rfl
  | cons ns rest ih =>
      cases h : alookup ns.entries key with
      | none => simp [deleteAux, h, ih]
      | some e =>
          by_cases hc : ns.nodeId = me
          · simp [deleteAux, h, hc]
          · simp [deleteAux, h, hc, ih]

theorem put_ids (me : String) (now : Int) (key : String) (value : List Nat)
    (expiration : Int) (fsm : FSM) :
    (put me now key value expiration fsm).nodeStates.map NodeState.nodeId =
      fsm.nodeStates.map NodeState.nodeId := by
  unfold put
  by_cases hc : fsm.nodeStates.any (fun ns => (alookup ns.entries key).isSome)
  · simp only [hc, if_true]
    exact overwriteAll_ids _ _ _
  · simp only [hc, if_false]
    exact insertLocal_ids _ _ _ _

theorem applyOp_uniq (me : String) (s : FSM) (op : Op) (h : uniqIds s) :
    uniqIds (applyOp me s op) := by
  cases op with
  | putOp now key value expiration =>
      unfold uniqIds
      rw [show (applyOp me s (.putOp now key value expiration)).nodeStates =
            (put me now key value expiration s).nodeStates from rfl]
      rw [put_ids]
      exact h
  | delOp now key =>
      unfold uniqIds
      rw [show (applyOp me s (.delOp now key)).nodeStates =
            (deleteKey me now key s).nodeStates from rfl]
      unfold deleteKey
      rw [show (FSM.mk (deleteAux me now key s.nodeStates)).nodeStates =
            deleteAux me now key s.nodeStates from rfl]
      rw [deleteAux_ids]
      exact h
  | mergeOp remote => exact merge_uniqIds s remote

theorem foldl_applyOp_uniq (me : String) (ops : List Op) (s : FSM) (h : uniqIds s) :
    uniqIds (ops.foldl (applyOp me) s) := by
  induction ops generalizing s with
  | nil => exact h
  | cons op rest ih => exact ih _ (applyOp_uniq me s op h)

/-- C8: in every state reachable from the initial delegate state by any
sequence of Put, Delete and MergeRemoteState operations, each node id
appears in at most one NodeState of the FSM. -/
theorem run_uniqIds (me : String) (ops : List Op) : uniqIds (run me ops) :=
  foldl_applyOp_uniq me ops (initFSM me) (by simp [uniqIds, initFSM])

/-! ### The merge map, partition by partition -/

theorem buildMap_go_eq (states : List NodeState) (acc : StateMap)
    (hdisj : ∀ ns ∈ states, ns.nodeId ∉ akeys acc)
    (hnodup : (states.map NodeState.nodeId).Nodup) :
    states.foldl (fun acc2 ns => ainsert acc2 ns.nodeId ns.entries) acc =
      acc ++ states.map (fun ns => (ns.nodeId, ns.entries)) := by
  induction states generalizing acc with
  | nil => simp
  | cons ns rest ih =>
      simp only [List.foldl_cons]
      rw [ainsert_of_not_mem _ _ _ (hdisj ns (by simp))]
      rw [ih (acc ++ [(ns.nodeId, ns.entries)]) ?_ (List.nodup_cons.1 hnodup).2]
      · simp
      · intro ns2 h2
        have h3 := hdisj ns2 (by simp [h2])
        have h4 : ns2.nodeId ≠ ns.nodeId := by
          intro hc
          exact (List.nodup_cons.1 hnodup).1 (hc ▸ List.mem_map_of_mem NodeState.nodeId h2)
        simp only [akeys, List.map_append, List.mem_append]
        rintro (hmem | hmem)
        · exact h3 hmem
        · simp at hmem
          exact h4 hmem

theorem alookup_pairs (states : List NodeState) (n : String) :
    alookup (states.map (fun ns => (ns.nodeId, ns.entries))) n =
      (findNS n states).map NodeState.entries := by
  induction states with
  | nil => rfl
  | cons ns rest ih =>
      by_cases h : ns.nodeId = n <;> simp [alookup, findNS, h, ih]

theorem alookup_buildMap (states : List NodeState) (n : String)
    (h : (states.map NodeState.nodeId).Nodup) :
    alookup (buildMap states) n = (findNS n states).map NodeState.entries := by
  unfold buildMap
  rw [buildMap_go_eq states [] (by simp [akeys]) h]
  simpa using alookup_pairs states n

theorem findNS_map_mk (m : StateMap) (n : String) :
    findNS n (m.map (fun kv => (⟨kv.1, kv.2⟩ : NodeState))) =
      (alookup m n).map (fun es => (⟨n, es⟩ : NodeState)) := by
  induction m with
  | nil => rfl
  | cons hd tl ih =>
      by_cases h : hd.1 = n <;> simp [findNS, alookup, h, ih]

theorem fsmLookup_merge_eq (L R : FSM) (n k : String) :
    fsmLookup (mergeRemoteState L R) n k =
      match alookup (R.nodeStates.foldl mergeNodeStep (buildMap L.nodeStates)) n with
      | none => none
      | some es => alookup es k := by
  unfold fsmLookup mergeRemoteState
  rw [findNS_map_mk]
  cases alookup (R.nodeStates.foldl mergeNodeStep (buildMap L.nodeStates)) n <;> rfl

theorem mergeFold_lookup_not_mem (rs : List NodeState) (acc : StateMap) (n : String)
    (h : ∀ rns ∈ rs, rns.nodeId ≠ n) :
    alookup (rs.foldl mergeNodeStep acc) n = alookup acc n := by
  induction rs generalizing acc with
  | nil => rfl
  | cons rns rest ih =>
      simp only [List.foldl_cons]
      rw [ih _ (fun x hx => h x (by simp [hx]))]
      cases h2 : alookup acc rns.nodeId with
      | none =>
          simp only [mergeNodeStep, h2]
          exact alookup_ainsert_ne _ _ _ _ (h rns (by simp))
      | some le =>
          simp only [mergeNodeStep, h2]
          exact alookup_ainsert_ne _ _ _ _ (h rns (by simp))

theorem mergeNodeStep_lookup_ne (acc : StateMap) (r0 : NodeState) (n : String)
    (h0 : r0.nodeId ≠ n) : alookup (mergeNodeStep acc r0) n = alookup acc n := by
  cases h2 : alookup acc r0.nodeId with
  | none =>
      simp only [mergeNodeStep, h2]
      exact alookup_ainsert_ne _ _ _ _ h0
  | some le =>
      simp only [mergeNodeStep, h2]
      exact alookup_ainsert_ne _ _ _ _ h0

theorem mergeFold_lookup_mem (rs : List NodeState) (acc : StateMap) (n : String)
    (rns : NodeState) (hfind : findNS n rs = some rns)
    (hnodup : (rs.map NodeState.nodeId).Nodup) :
    alookup (rs.foldl mergeNodeStep acc) n =
      some (match alookup acc n with
            | none => rns.entries
            | some le => mergeEntries le rns.entries) := by
  induction rs generalizing acc with
  | nil => cases hfind
  | cons r0 rest ih =>
      by_cases h0 : r0.nodeId = n
      · have hr : rns = r0 := by
          simp only [findNS, if_pos h0] at hfind
          exact (Option.some.injEq _ _ ▸ hfind).symm
        subst hr
        have hrest : ∀ x ∈ rest, x.nodeId ≠ n := by
          intro x hx hc
          exact (List.nodup_cons.1 hnodup).1
            (h0 ▸ hc ▸ List.mem_map_of_mem NodeState.nodeId hx)
        simp only [List.foldl_cons]
        rw [mergeFold_lookup_not_mem rest _ n hrest]
        cases h2 : alookup acc n with
        | none =>
            simp only [mergeNodeStep, h0, h2]
            exact alookup_ainsert_self _ _ _
        | some le =>
            simp only [mergeNodeStep, h0, h2]
            exact alookup_ainsert_self _ _ _
      · have hfind2 : findNS n rest = some rns := by
          simpa [findNS, h0] using hfind
        simp only [List.foldl_cons]
        rw [ih _ hfind2 (List.nodup_cons.1 hnodup).2]
        rw [mergeNodeStep_lookup_ne acc r0 n h0]

theorem findNS_eq_none_iff (states : List NodeState) (n : String) :
    findNS n states = none ↔ ∀ ns ∈ states, ns.nodeId ≠ n := by
  induction states with
  | nil => simp [findNS]
  | cons ns rest ih =>
      by_cases h : ns.nodeId = n <;> simp [findNS, h, ih]

theorem findNS_mem (states : List NodeState) (n : String) (ns : NodeState)
    (h : findNS n states = some ns) : ns ∈ states := by
  induction states with
  | nil => cases h
  | cons ns0 rest ih =>
      by_cases h0 : ns0.nodeId = n
      · simp only [findNS, if_pos h0] at h
        simp [← Option.some.injEq _ _ ▸ h]
      · simp only [findNS, if_neg h0] at h
        exact List.mem_cons_of_mem _ (ih h)

/-! ### The entry merge, key by key -/

theorem mergeStep_lookup_ne (acc : Entries) (kv : String × Entry) (k : String)
    (h : kv.1 ≠ k) : alookup (mergeStep acc kv) k = alookup acc k := by
  cases h2 : alookup acc kv.1 with
  | none =>
      simp only [mergeStep, h2]
      exact alookup_ainsert_ne _ _ _ _ h
  | some le =>
      simp only [mergeStep, h2]
      by_cases h3 : le.lastUpdatedUnix > kv.2.lastUpdatedUnix
      · simp [h3]
      · simp only [if_neg h3]
        exact alookup_ainsert_ne _ _ _ _ h

theorem mergeEntries_fold_not_mem (re : Entries) (acc : Entries) (k : String)
    (h : k ∉ akeys re) :
    alookup (re.foldl mergeStep acc) k = alookup acc k := by
  induction re generalizing acc with
  | nil => rfl
  | cons kv rest ih =>
      simp only [akeys, List.map_cons, List.mem_cons] at h
      push_neg at h
      simp only [List.foldl_cons]
      rw [ih _ (by simpa [akeys] using h.2)]
      exact mergeStep_lookup_ne _ _ _ (fun hc => h.1 hc.symm)

theorem mergeEntries_lookup (le re : Entries) (k : String)
    (hw : (akeys re).Nodup) :
    alookup (mergeEntries le re) k = lww (alookup le k) (alookup re k) := by
  induction re generalizing le with
  | nil => cases h : alookup le k <;> simp [mergeEntries, lww, alookup, h]
  | cons kv rest ih =>
      obtain ⟨k0, er0⟩ := kv
      have hnd : k0 ∉ akeys rest ∧ (akeys rest).Nodup := by
        simpa [akeys, List.nodup_cons] using hw
      by_cases hk : k0 = k
      · subst hk
        show alookup (rest.foldl mergeStep (mergeStep le (k0, er0))) k0 = _
        rw [mergeEntries_fold_not_mem rest _ k0 hnd.1]
        have hre : alookup ((k0, er0) :: rest) k0 = some er0 := by simp [alookup]
        rw [hre]
        cases h2 : alookup le k0 with
        | none =>
            simp only [mergeStep, h2, lww]
            exact alookup_ainsert_self _ _ _
        | some el =>
            by_cases h3 : el.lastUpdatedUnix > er0.lastUpdatedUnix
            · simp [mergeStep, h2, h3, lww]
            · simp only [mergeStep, h2, if_neg h3, lww]
              exact alookup_ainsert_self _ _ _
      · have hre : alookup ((k0, er0) :: rest) k = alookup rest k := by
          simp [alookup, hk]
        show alookup (rest.foldl mergeStep (mergeStep le (k0, er0))) k = _
        have ih2 := ih (mergeStep le (k0, er0)) hnd.2
        rw [show rest.foldl mergeStep (mergeStep le (k0, er0)) =
              mergeEntries (mergeStep le (k0, er0)) rest from rfl]
        rw [ih2, hre, mergeStep_lookup_ne le (k0, er0) k hk]

instance uniqIdsDec (fsm : FSM) : Decidable (uniqIds fsm) := by
  unfold uniqIds
  infer_instance

instance wfEntriesFDec (fsm : FSM) : Decidable (wfEntriesF fsm) := by
  unfold wfEntriesF
  infer_instance

instance tripleInDec (fsm : FSM) (n k : String) (e : Entry) : Decidable (tripleIn fsm n k e) := by
  unfold tripleIn
  infer_instance

/-- C1: for well-formed local and remote FSMs with unique node ids, the merge
produces for each node id and key exactly the pointwise last-writer-wins
union: the local entry when it is strictly newer by whole-second unix
timestamp, otherwise the remote entry when present (equal timestamps yield
the remote entry, and a remote partition for a locally absent node id is
adopted verbatim), otherwise the unchanged local entry. -/
theorem merge_pointwise_lww (L R : FSM) (hL : uniqIds L) (hR : uniqIds R)
    (hwR : wfEntriesF R) (n k : String) :
    fsmLookup (mergeRemoteState L R) n k = lww (fsmLookup L n k) (fsmLookup R n k) := by
  rw [fsmLookup_merge_eq]
  cases hfind : findNS n R.nodeStates with
  | none =>
      have hnone : ∀ rns ∈ R.nodeStates, rns.nodeId ≠ n := (findNS_eq_none_iff _ _).1 hfind
      rw [mergeFold_lookup_not_mem _ _ _ hnone, alookup_buildMap _ _ hL]
      unfold fsmLookup
      rw [hfind]
      cases h2 : findNS n L.nodeStates with
      | none => simp [lww]
      | some lns => cases h3 : alookup lns.entries k <;> simp [lww, h3]
  | some rns =>
      rw [mergeFold_lookup_mem _ _ _ _ hfind hR, alookup_buildMap _ _ hL]
      unfold fsmLookup
      rw [hfind]
      cases h2 : findNS n L.nodeStates with
      | none =>
          cases h3 : alookup rns.entries k <;> simp [lww, h3]
      | some lns =>
          simpa using mergeEntries_lookup lns.entries rns.entries k
            (hwR rns (findNS_mem _ _ _ hfind))

/-- Local entry used in the C1 witness, timestamp 5. -/
def c1el : Entry := ⟨"k", [1], none, some 5, none⟩

/-- Remote entry used in the C1 witness, timestamp also 5. -/
def c1er : Entry := ⟨"k", [2], none, some 5, none⟩

/-- Local FSM used in the C1 witness. -/
def c1local : FSM := ⟨[⟨"a", [("k", c1el)]⟩]⟩

/-- Remote FSM used in the C1 witness. -/
def c1remote : FSM := ⟨[⟨"a", [("k", c1er)]⟩]⟩

/-- Witness for C1 at a concrete input where the timestamps tie: the remote
entry is retained. -/
theorem merge_pointwise_lww_witness :
    uniqIds c1local ∧ uniqIds c1remote ∧ wfEntriesF c1remote ∧
      fsmLookup (mergeRemoteState c1local c1remote) "a" "k" = some c1er :=
  ⟨by decide, by decide, by decide, by
    rw [merge_pointwise_lww c1local c1remote (by decide) (by decide) (by decide) "a" "k"]
    decide⟩

theorem map_mk_pair (states : List NodeState) :
    (states.map (fun ns => (ns.nodeId, ns.entries))).map
        (fun kv => (⟨kv.1, kv.2⟩ : NodeState)) = states := by
  induction states with
  | nil => rfl
  | cons ns rest ih =>
      simp only [List.map_cons]
      rw [ih]

theorem merge_empty_eq (L R : FSM) (hL : uniqIds L) (hR : R.nodeStates = []) :
    mergeRemoteState L R = L := by
  unfold mergeRemoteState
  rw [hR]
  simp only [List.foldl_nil]
  unfold buildMap
  rw [buildMap_go_eq L.nodeStates [] (by simp [akeys]) hL]
  simp only [List.nil_append]
  rw [map_mk_pair]

/-- C7: merging an input that decodes to an FSM with no node states (in
particular the zero-valued FSM left by a deserialization failure) leaves the
set of (node id, key, entry) triples of a well-formed local FSM unchanged. -/
theorem merge_empty_remote_triples (L R : FSM) (hL : uniqIds L)
    (hR : R.nodeStates = []) (n k : String) (e : Entry) :
    tripleIn (mergeRemoteState L R) n k e ↔ tripleIn L n k e := by
  rw [merge_empty_eq L R hL hR]

/-- Entry used in the C7 witness. -/
def c7e : Entry := ⟨"k", [3], none, some 4, none⟩

/-- Local FSM used in the C7 witness. -/
def c7fsm : FSM := ⟨[⟨"a", [("k", c7e)]⟩, ⟨"b", []⟩]⟩

/-- Witness for C7 at a concrete two-partition state merged with the
zero-valued FSM. -/
theorem merge_empty_remote_triples_witness :
    uniqIds c7fsm ∧
      (tripleIn (mergeRemoteState c7fsm ⟨[]⟩) "a" "k" c7e ↔ tripleIn c7fsm "a" "k" c7e) :=
  ⟨by decide, merge_empty_remote_triples c7fsm ⟨[]⟩ (by decide) rfl "a" "k" c7e⟩

/-! ### Timestamp monotonicity of the merge -/

theorem mergeStep_mono (acc : Entries) (kv : String × Entry) (k : String) (e : Entry)
    (h : alookup acc k = some e) :
    ∃ e2, alookup (mergeStep acc kv) k = some e2 ∧
      e.lastUpdatedUnix ≤ e2.lastUpdatedUnix := by
  obtain ⟨k0, er⟩ := kv
  by_cases hk : k0 = k
  · subst hk
    simp only [mergeStep, h]
    by_cases h3 : e.lastUpdatedUnix > er.lastUpdatedUnix
    · exact ⟨e, by simp [h3, h], le_refl _⟩
    · refine ⟨er, ?_, by omega⟩
      simp only [if_neg h3]
      exact alookup_ainsert_self _ _ _
  · exact ⟨e, by rw [mergeStep_lookup_ne _ _ _ hk]; exact h, le_refl _⟩

theorem mergeEntries_mono (re : Entries) (le : Entries) (k : String) (e : Entry)
    (h : alookup le k = some e) :
    ∃ e2, alookup (mergeEntries le re) k = some e2 ∧
      e.lastUpdatedUnix ≤ e2.lastUpdatedUnix := by
  induction re generalizing le e with
  | nil => exact ⟨e, h, le_refl _⟩
  | cons kv rest ih =>
      obtain ⟨e1, h1, hle1⟩ := mergeStep_mono le kv k e h
      obtain ⟨e2, h2, hle2⟩ := ih (mergeStep le kv) e1 h1
      exact ⟨e2, h2, le_trans hle1 hle2⟩

theorem mergeNodeStep_mono (acc : StateMap) (rns : NodeState) (n k : String)
    (es : Entries) (e : Entry) (hacc : alookup acc n = some es)
    (he : alookup es k = some e) :
    ∃ es2 e2, alookup (mergeNodeStep acc rns) n = some es2 ∧
      alookup es2 k = some e2 ∧ e.lastUpdatedUnix ≤ e2.lastUpdatedUnix := by
  by_cases h0 : rns.nodeId = n
  · simp only [mergeNodeStep, h0, hacc]
    obtain ⟨e2, h2, hle⟩ := mergeEntries_mono rns.entries es k e he
    exact ⟨mergeEntries es rns.entries, e2, alookup_ainsert_self _ _ _, h2, hle⟩
  · exact ⟨es, e, by rw [mergeNodeStep_lookup_ne _ _ _ h0]; exact hacc, he, le_refl _⟩

theorem mergeFold_mono (rs : List NodeState) (acc : StateMap) (n k : String)
    (es : Entries) (e : Entry) (hacc : alookup acc n = some es)
    (he : alookup es k = some e) :
    ∃ es2 e2, alookup (rs.foldl mergeNodeStep acc) n = some es2 ∧
      alookup es2 k = some e2 ∧ e.lastUpdatedUnix ≤ e2.lastUpdatedUnix := by
  induction rs generalizing acc es e with
  | nil => exact ⟨es, e, hacc, he, le_refl _⟩
  | cons rns rest ih =>
      obtain ⟨es1, e1, h1, h2, hle1⟩ := mergeNodeStep_mono acc rns n k es e hacc he
      obtain ⟨es2, e2, h3, h4, hle2⟩ := ih (mergeNodeStep acc rns) es1 e1 h1 h2
      exact ⟨es2, e2, h3, h4, le_trans hle1 hle2⟩

theorem merge_lookup_mono (s r : FSM) (n k : String) (el e2 : Entry)
    (huniq : uniqIds s) (hb : fsmLookup s n k = some el)
    (ha : fsmLookup (mergeRemoteState s r) n k = some e2) :
    el.lastUpdatedUnix ≤ e2.lastUpdatedUnix := by
  unfold fsmLookup at hb
  cases hfind : findNS n s.nodeStates with
  | none => rw [hfind] at hb; cases hb
  | some ns =>
      rw [hfind] at hb
      have hm0 : alookup (buildMap s.nodeStates) n = some ns.entries := by
        rw [alookup_buildMap _ _ huniq, hfind]
        rfl
      obtain ⟨es2, e3, h3, h4, hle⟩ :=
        mergeFold_mono r.nodeStates _ n k ns.entries el hm0 hb
      rw [fsmLookup_merge_eq] at ha
      rw [h3] at ha
      have ha2 : alookup es2 k = some e2 := ha
      rw [h4] at ha2
      obtain rfl : e3 = e2 := Option.some.inj ha2
      exact hle

theorem mergeFoldList_uniq (rs : List FSM) (s0 : FSM) (h : uniqIds s0) :
    uniqIds (rs.foldl mergeRemoteState s0) := by
  induction rs generalizing s0 with
  | nil => exact h
  | cons r0 rest ih => exact ih _ (merge_uniqIds _ _)

/-- C2: starting from a well-formed state and after any sequence of
MergeRemoteState applications, one further merge never decreases the
last-updated timestamp of an entry that is present under the same node id
and key both before and after that merge. -/
theorem merge_timestamp_monotone (s0 : FSM) (rs : List FSM) (r : FSM) (n k : String)
    (el e2 : Entry) (huniq : uniqIds s0)
    (hb : fsmLookup (rs.foldl mergeRemoteState s0) n k = some el)
    (ha : fsmLookup (mergeRemoteState (rs.foldl mergeRemoteState s0) r) n k = some e2) :
    el.lastUpdatedUnix ≤ e2.lastUpdatedUnix :=
  merge_lookup_mono _ r n k el e2 (mergeFoldList_uniq rs s0 huniq) hb ha

/-- Older local entry used in the C2 witness. -/
def c2e1 : Entry := ⟨"k", [1], none, some 3, none⟩

/-- Newer remote entry used in the C2 witness. -/
def c2e2 : Entry := ⟨"k", [2], none, some 7, none⟩

/-- Local FSM used in the C2 witness. -/
def c2local : FSM := ⟨[⟨"a", [("k", c2e1)]⟩]⟩

/-- Remote FSM used in the C2 witness. -/
def c2remote : FSM := ⟨[⟨"a", [("k", c2e2)]⟩]⟩

/-- Witness for C2 at a concrete merge that replaces timestamp 3 by 7. -/
theorem merge_timestamp_monotone_witness :
    uniqIds c2local ∧ fsmLookup c2local "a" "k" = some c2e1 ∧
      c2e1.lastUpdatedUnix ≤ c2e2.lastUpdatedUnix :=
  ⟨by decide, by decide,
    merge_timestamp_monotone c2local [] c2remote "a" "k" c2e1 c2e2
      (by decide) (by decide) (by decide)⟩

/-! ### Delete touches only the own partition -/

/-- List-level form of `fsmLookup`. -/
def nsLookup (l : List NodeState) (n k : String) : Option Entry :=
  match findNS n l with
  | none => none
  | some ns => alookup ns.entries k

theorem deleteAux_lookup_self (me : String) (now : Int) (key : String)
    (l : List NodeState) (e : Entry) (h : nsLookup l me key = some e) :
    nsLookup (deleteAux me now key l) me key =
      some { e with archived := some true, last_updated_time := some now } := by
  induction l with
  | nil => cases h
  | cons ns rest ih =>
      by_cases h0 : ns.nodeId = me
      · have hl : alookup ns.entries key = some e := by
          unfold nsLookup at h
          rw [findNS, if_pos h0] at h
          exact h
        simp only [deleteAux, hl, if_pos h0]
        unfold nsLookup
        simp only [findNS, if_pos h0]
        exact alookup_ainsert_self _ _ _
      · have hrest : nsLookup rest me key = some e := by
          unfold nsLookup at h ⊢
          rw [findNS, if_neg h0] at h
          exact h
        cases hc : alookup ns.entries key with
        | none =>
            simp only [deleteAux, hc]
            unfold nsLookup
            simp only [findNS, if_neg h0]
            exact ih hrest
        | some e0 =>
            simp only [deleteAux, hc, if_neg h0]
            unfold nsLookup
            simp only [findNS, if_neg h0]
            exact ih hrest

theorem deleteAux_lookup_other (me : String) (now : Int) (key : String)
    (l : List NodeState) (n k2 : String) (hnk : ¬ (n = me ∧ k2 = key)) :
    nsLookup (deleteAux me now key l) n k2 = nsLookup l n k2 := by
  induction l with
  | nil => rfl
  | cons ns rest ih =>
      cases hc : alookup ns.entries key with
      | none =>
          by_cases h0 : ns.nodeId = n
          · simp only [deleteAux, hc]
            unfold nsLookup
            simp only [findNS, if_pos h0]
          · simp only [deleteAux, hc]
            unfold nsLookup
            simp only [findNS, if_neg h0]
            exact ih
      | some e0 =>
          by_cases hme : ns.nodeId = me
          · simp only [deleteAux, hc, if_pos hme]
            by_cases h0 : ns.nodeId = n
            · have hnme : n = me := by rw [← h0, hme]
              have hk2 : key ≠ k2 := fun hk => hnk ⟨hnme, hk.symm⟩
              unfold nsLookup
              simp only [findNS, if_pos h0]
              exact alookup_ainsert_ne _ _ _ _ hk2
            · unfold nsLookup
              simp only [findNS, if_neg h0]
          · simp only [deleteAux, hc, if_neg hme]
            by_cases h0 : ns.nodeId = n
            · unfold nsLookup
              simp only [findNS, if_pos h0]
            · unfold nsLookup
              simp only [findNS, if_neg h0]
              exact ih

theorem deleteAux_id_not_mem (me : String) (now : Int) (key : String)
    (l : List NodeState) (h : ∀ ns ∈ l, ns.nodeId ≠ me) :
    deleteAux me now key l = l := by
  induction l with
  | nil => rfl
  | cons ns rest ih =>
      have hrest := ih (fun x hx => h x (List.mem_cons_of_mem _ hx))
      cases hc : alookup ns.entries key with
      | none => simp [deleteAux, hc, hrest]
      | some e0 => simp [deleteAux, hc, h ns (by simp), hrest]

theorem deleteAux_noop (me : String) (now : Int) (key : String)
    (l : List NodeState) (hnodup : (l.map NodeState.nodeId).Nodup)
    (h : nsLookup l me key = none) : deleteAux me now key l = l := by
  induction l with
  | nil => rfl
  | cons ns rest ih =>
      by_cases h0 : ns.nodeId = me
      · have hl : alookup ns.entries key = none := by
          unfold nsLookup at h
          rw [findNS, if_pos h0] at h
          exact h
        have hrest : ∀ x ∈ rest, x.nodeId ≠ me := by
          intro x hx hc
          exact (List.nodup_cons.1 hnodup).1
            (h0 ▸ hc ▸ List.mem_map_of_mem NodeState.nodeId hx)
        simp only [deleteAux, hl]
        rw [deleteAux_id_not_mem me now key rest hrest]
      · have hrest : nsLookup rest me key = none := by
          unfold nsLookup at h ⊢
          rw [findNS, if_neg h0] at h
          exact h
        have hr := ih (List.nodup_cons.1 hnodup).2 hrest
        cases hc : alookup ns.entries key with
        | none => simp only [deleteAux, hc]; rw [hr]
        | some e0 => simp only [deleteAux, hc, if_neg h0]; rw [hr]

/-- C4: on a well-formed state, `Delete(k)` on node `me` archives and
re-timestamps the entry for `k` in the own partition when present, leaves
every other (node id, key) slot unchanged — in particular entries for `k`
in peer partitions — and is a complete no-op when the own partition does
not contain `k`, even if peer partitions do. -/
theorem delete_local_partition_only (me : String) (now : Int) (key : String)
    (fsm : FSM) (huniq : uniqIds fsm) :
    ((deleteKey me now key fsm).nodeStates.map NodeState.nodeId =
        fsm.nodeStates.map NodeState.nodeId) ∧
    (∀ e, fsmLookup fsm me key = some e →
        fsmLookup (deleteKey me now key fsm) me key =
          some { e with archived := some true, last_updated_time := some now }) ∧
    (∀ n k2, ¬ (n = me ∧ k2 = key) →
        fsmLookup (deleteKey me now key fsm) n k2 = fsmLookup fsm n k2) ∧
    (fsmLookup fsm me key = none → deleteKey me now key fsm = fsm) := by
  refine ⟨deleteAux_ids me now key fsm.nodeStates, ?_, ?_, ?_⟩
  · intro e he
    exact deleteAux_lookup_self me now key fsm.nodeStates e he
  · intro n k2 hnk
    exact deleteAux_lookup_other me now key fsm.nodeStates n k2 hnk
  · intro h
    unfold deleteKey
    rw [deleteAux_noop me now key fsm.nodeStates huniq h]

/-- Entry used in the C4 witness. -/
def c4e : Entry := ⟨"k", [9], none, some 2, none⟩

/-- Two-partition state used in the C4 witness: the key lives both in the
peer partition and in the own partition. -/
def c4fsm : FSM := ⟨[⟨"b", [("k", c4e)]⟩, ⟨"a", [("k", c4e)]⟩]⟩

/-- Witness for C4: deleting on node `a` archives the own copy and leaves
the peer copy under node `b` untouched. -/
theorem delete_local_partition_only_witness :
    uniqIds c4fsm ∧ fsmLookup c4fsm "a" "k" = some c4e ∧
      fsmLookup (deleteKey "a" 9 "k" c4fsm) "a" "k" =
        some { c4e with archived := some true, last_updated_time := some 9 } ∧
      fsmLookup (deleteKey "a" 9 "k" c4fsm) "b" "k" = fsmLookup c4fsm "b" "k" :=
  ⟨by decide, by decide,
    (delete_local_partition_only "a" 9 "k" c4fsm (by decide)).2.1 c4e (by decide),
    (delete_local_partition_only "a" 9 "k" c4fsm (by decide)).2.2.1 "b" "k" (by decide)⟩

/-! ### Put on a key with split ownership -/

/-- C10: when the key is present in two (or more) distinct partitions, `Put`
overwrites the entry in every partition that contains the key — same value,
same fresh timestamp, no archived flag, the new expiry — leaves every
partition without the key unchanged, and inserts nothing new into the local
node's partition. -/
theorem put_overwrites_every_partition (me : String) (now : Int) (key : String)
    (value : List Nat) (expiration : Int) (fsm : FSM) (i j : Nat)
    (_hij : i ≠ j) (hi : i < fsm.nodeStates.length) (hj : j < fsm.nodeStates.length)
    (hki : (alookup (fsm.nodeStates.get ⟨i, hi⟩).entries key).isSome = true)
    (_hkj : (alookup (fsm.nodeStates.get ⟨j, hj⟩).entries key).isSome = true) :
    ((put me now key value expiration fsm).nodeStates.length = fsm.nodeStates.length) ∧
    (∀ (m : Nat) (hm : m < fsm.nodeStates.length)
        (hm2 : m < (put me now key value expiration fsm).nodeStates.length),
      ((alookup (fsm.nodeStates.get ⟨m, hm⟩).entries key).isSome = true →
        (put me now key value expiration fsm).nodeStates.get ⟨m, hm2⟩ =
          ⟨(fsm.nodeStates.get ⟨m, hm⟩).nodeId,
            ainsert (fsm.nodeStates.get ⟨m, hm⟩).entries key
              (freshEntry key value now expiration)⟩) ∧
      ((alookup (fsm.nodeStates.get ⟨m, hm⟩).entries key).isSome = false →
        (put me now key value expiration fsm).nodeStates.get ⟨m, hm2⟩ =
          fsm.nodeStates.get ⟨m, hm⟩)) := by
  have hany : fsm.nodeStates.any (fun ns => (alookup ns.entries key).isSome) = true := by
    rw [List.any_eq_true]
    exact ⟨fsm.nodeStates.get ⟨i, hi⟩, List.get_mem _ _ _, hki⟩
  have hput : put me now key value expiration fsm =
      ⟨overwriteAll key (freshEntry key value now expiration) fsm.nodeStates⟩ := by
    simp only [put, hany, if_true]
  rw [hput]
  refine ⟨by simp [overwriteAll], ?_⟩
  intro m hm hm2
  constructor
  · intro hc
    simp only [List.get_eq_getElem] at hc ⊢
    simp [overwriteAll, List.getElem_map, hc]
  · intro hc
    simp only [List.get_eq_getElem] at hc ⊢
    simp [overwriteAll, List.getElem_map, hc]

/-- Entry used in the C10 witness under node `a`. -/
def c10ea : Entry := ⟨"k", [1], none, some 1, none⟩

/-- Entry used in the C10 witness under node `b`. -/
def c10eb : Entry := ⟨"k", [2], none, some 2, none⟩

/-- Split-ownership state used in the C10 witness: both partitions carry the
key. -/
def c10fsm : FSM := ⟨[⟨"a", [("k", c10ea)]⟩, ⟨"b", [("k", c10eb)]⟩]⟩

/-- Witness for C10: both partitions receive the same fresh entry. -/
theorem put_overwrites_every_partition_witness :
    (alookup (c10fsm.nodeStates.get ⟨0, by decide⟩).entries "k").isSome = true ∧
      (put "a" 7 "k" [9] 0 c10fsm).nodeStates.get
          ⟨1, by decide⟩ =
        ⟨"b", [("k", freshEntry "k" [9] 7 0)]⟩ :=
  ⟨by decide, by
    rw [((put_overwrites_every_partition "a" 7 "k" [9] 0 c10fsm 0 1 (by decide)
        (by decide) (by decide) (by decide) (by decide)).2 1 (by decide)
        (by decide)).1 (by decide)]
    decide⟩

end GoKV
